import Mathlib

/-!
Verification of the trip-coordination backend's algorithmic core:
the debt-settlement algorithm (`SettlementCalculator.calculate_settlements`),
the crowd-avoidance scorer (`CrowdAvoidanceScorer.score_place` /
`rank_places`), and the place-building helpers of the recommender
(`Recommender._fetch_overpass_places`, `_category_from_tags`).

Money amounts and coordinates are embedded as rationals (`ℚ`), Python dicts
as insertion-ordered association lists, and the mutation of `crowd_score`
as returning an updated record.  The haversine distance computation uses
floating-point transcendental functions, so the place-building code is
parametrised over the distance function; none of the verified properties
depend on its value.
-/

namespace IChack

/-- Embedding of the `Transfer` dataclass. -/
structure Transfer where
  from_person : String
  to_person : String
  amount : ℚ
deriving DecidableEq, Repr

/-- Embedding of an expense record: `{'amount', 'paid_by', 'split_between'}`. -/
structure Expense where
  amount : ℚ
  paid_by : String
  split_between : List String
deriving DecidableEq, Repr

/-- Embedding of the `Place` dataclass. -/
structure Place where
  name : String
  lat : ℚ
  lon : ℚ
  category : String
  osm_type : String := ""
  is_chain : Bool := false
  is_tourist_attraction : Bool := false
  distance_from_center : ℚ := 0
  crowd_score : ℚ := 0
deriving DecidableEq, Repr

/-- `balances[p] += v` on a `defaultdict(float)`, modelled as an
insertion-ordered association list (Python dicts iterate in insertion
order). -/
def addBal : List (String × ℚ) → String → ℚ → List (String × ℚ)
  | [], p, v => [(p, v)]
  | (q, w) :: rest, p, v =>
      if q = p then (q, w + v) :: rest else (q, w) :: addBal rest p v

/-- One iteration of the balance-accumulation loop of
`calculate_settlements`: credit `paid_by` by `amount`, then debit each
occurrence in `split_between` by `amount / len(split_between)`. -/
def applyExpense (bs : List (String × ℚ)) (e : Expense) : List (String × ℚ) :=
  e.split_between.foldl
    (fun b person => addBal b person (-(e.amount / (e.split_between.length : ℚ))))
    (addBal bs e.paid_by e.amount)

/-- Step 1 of `calculate_settlements`: the net balance of every person,
in dict insertion order. -/
def netBalances (expenses : List Expense) : List (String × ℚ) :=
  expenses.foldl applyExpense []

/-- Step 2 of `calculate_settlements`: the creditor entries
(balance `> 0.01`), in balance-dict iteration order. -/
def creditorsOf (expenses : List Expense) : List (String × ℚ) :=
  (netBalances expenses).filter (fun pb => decide ((1 : ℚ)/100 < pb.2))

/-- Step 2 of `calculate_settlements`: the debtor entries
(balance `< -0.01`, stored as the positive amount owed). -/
def debtorsOf (expenses : List Expense) : List (String × ℚ) :=
  ((netBalances expenses).filter (fun pb => decide (pb.2 < -((1 : ℚ)/100)))).map
    (fun pb => (pb.1, -pb.2))

/-- `list.sort(key=lambda x: x[1], reverse=True)`: a stable sort,
largest amount first. -/
def sortDesc (l : List (String × ℚ)) : List (String × ℚ) :=
  l.mergeSort (fun a b => decide (b.2 ≤ a.2))

/-- Step 3 of `calculate_settlements`: the greedy matching loop.  The heads
of the two lists are matched with a transfer of the minimum of the two
remaining amounts; a party is dropped once its remaining amount falls
below `0.01`. -/
def settleLoop : List (String × ℚ) → List (String × ℚ) → List Transfer
  | [], _ => []
  | _ :: _, [] => []
  | (c, ca) :: cs, (d, da) :: ds =>
      Transfer.mk d c (min ca da) ::
        settleLoop
          (if ca - min ca da < (1 : ℚ)/100 then cs else (c, ca - min ca da) :: cs)
          (if da - min ca da < (1 : ℚ)/100 then ds else (d, da - min ca da) :: ds)
termination_by cs ds => cs.length + ds.length
decreasing_by
  rcases min_choice ca da with h | h <;> rw [h] <;> simp only [sub_self] <;>
    split <;> split <;> simp_all <;> omega

/-- Embedding of `SettlementCalculator.calculate_settlements`. -/
def calculate_settlements (expenses : List Expense) : List Transfer :=
  settleLoop (sortDesc (creditorsOf expenses)) (sortDesc (debtorsOf expenses))

/-- Total amount the transfer list sends to person `p`. -/
def receivedBy (p : String) (ts : List Transfer) : ℚ :=
  ((ts.filter (fun t => t.to_person = p)).map Transfer.amount).sum

/-- Total amount the transfer list takes from person `p`. -/
def paidBy (p : String) (ts : List Transfer) : ℚ :=
  ((ts.filter (fun t => t.from_person = p)).map Transfer.amount).sum

/-- Embedding of `CrowdAvoidanceScorer.score_place`.  The Python function
mutates `place.crowd_score` and returns the score; here it returns the
updated place together with the score. -/
def score_place (place : Place) (normalize_distance : ℚ := 5) : Place × ℚ :=
  let distance_score : ℚ := 1 - min (place.distance_from_center / normalize_distance) 1
  let attraction_penalty : ℚ := if place.is_tourist_attraction then 4/5 else 0
  let chain_penalty : ℚ := if place.is_chain then 7/10 else 0
  let crowd_score : ℚ :=
    distance_score * (2/5) + attraction_penalty * (3/10) + chain_penalty * (3/10)
  ({ place with crowd_score := crowd_score }, crowd_score)

/-- Embedding of `CrowdAvoidanceScorer.rank_places`: score every place
(with the default `normalize_distance = 5.0`), then stably sort by
`crowd_score`, ascending when `avoid_crowds` else descending
(`reverse=True` on a stable sort keeps ties in input order). -/
def rank_places (places : List Place) (avoid_crowds : Bool := false) : List Place :=
  let scored := places.map (fun p => (score_place p).1)
  if avoid_crowds then
    scored.mergeSort (fun a b => decide (a.crowd_score ≤ b.crowd_score))
  else
    scored.mergeSort (fun a b => decide (b.crowd_score ≤ a.crowd_score))

/-- Model of Python's `str.strip()`: remove leading and trailing
whitespace.  (Lean's built-in trim is opaque to kernel reduction, so the
embedding spells it out over the character list.) -/
def pyStrip (s : String) : String :=
  String.mk (((s.data.dropWhile Char.isWhitespace).reverse.dropWhile
    Char.isWhitespace).reverse)

/-- `tags.get(key)` on a Python dict embedded as an association list. -/
def tagsGet (tags : List (String × String)) (key : String) : Option String :=
  (tags.find? (fun kv => kv.1 = key)).map Prod.snd

/-- Embedding of `Recommender._category_from_tags`. -/
def category_from_tags (tags : List (String × String)) : String :=
  if tagsGet tags "amenity" = some "cafe" then "cafe"
  else if tagsGet tags "amenity" = some "restaurant" then "restaurant"
  else if tagsGet tags "leisure" = some "park" then "park"
  else if tagsGet tags "tourism" = some "museum" then "museum"
  else if tagsGet tags "tourism" = some "attraction" then "attraction"
  else "place"

/-- A raw Overpass element: `{"type": ..., "lat": ..., "lon": ..., "tags": {...}}`. -/
structure OverpassElement where
  etype : Option String := none
  lat : Option ℚ := none
  lon : Option ℚ := none
  tags : List (String × String) := []
deriving DecidableEq, Repr

/-- The body of the element loop of `Recommender._fetch_overpass_places`:
skip the element when its trimmed `name` tag is missing or empty, or when
`lat`/`lon` is missing; otherwise build a `Place`.  `dist` abstracts the
floating-point haversine helper `_haversine_km`. -/
def buildOverpassPlace (dist : ℚ → ℚ → ℚ → ℚ → ℚ) (centerLat centerLon : ℚ)
    (el : OverpassElement) : Option Place :=
  let name := pyStrip ((tagsGet el.tags "name").getD "")
  if name = "" then none
  else
    match el.lat, el.lon with
    | some la, some lo =>
        some { name := name
               lat := la
               lon := lo
               category := category_from_tags el.tags
               osm_type := el.etype.getD ""
               is_tourist_attraction := tagsGet el.tags "tourism" == some "attraction"
               is_chain := decide (pyStrip ((tagsGet el.tags "brand").getD "") ≠ "")
               distance_from_center := dist centerLat centerLon la lo
               crowd_score := 0 }
    | _, _ => none

/-- Embedding of the pure part of `Recommender._fetch_overpass_places`:
the list of `Place` records built from the fetched elements, in order. -/
def fetch_overpass_places (dist : ℚ → ℚ → ℚ → ℚ → ℚ) (centerLat centerLon : ℚ)
    (elements : List OverpassElement) : List Place :=
  elements.filterMap (buildOverpassPlace dist centerLat centerLon)

/-- An element survives the loop's guards iff its trimmed name is non-empty
and both coordinates are present. -/
def validElement (el : OverpassElement) : Bool :=
  decide (pyStrip ((tagsGet el.tags "name").getD "") ≠ "") && el.lat.isSome &&
    el.lon.isSome

/-- A perfectly cancelling ledger: two people each pay half of a shared
bill. -/
def cancellingExpenses : List Expense :=
  [Expense.mk 10 "A" ["A", "B"], Expense.mk 10 "B" ["A", "B"]]

/-- One person pays 3 entirely on another's behalf. -/
def simpleExpense : List Expense := [Expense.mk 3 "A" ["B"]]

/-- A paid 0.02 split between B and C: each share is exactly the 0.01
threshold, so neither debtor passes the strict `< -0.01` test. -/
def tinyExpense : List Expense := [Expense.mk (1/50) "A" ["B", "C"]]

/-- A place at distance 0 that is both a chain and a tourist attraction. -/
def mostCrowdedPlace : Place :=
  { name := "Central Chain Attraction", lat := 0, lon := 0,
    category := "attraction", osm_type := "node", is_chain := true,
    is_tourist_attraction := true, distance_from_center := 0, crowd_score := 0 }

/-- The constant-zero stand-in for the haversine distance parameter. -/
def distZero : ℚ → ℚ → ℚ → ℚ → ℚ := fun _ _ _ _ => 0

/-- An element tagged as a museum (no `tourism=attraction` tag). -/
def museumElement : OverpassElement :=
  { etype := some "node", lat := some 1, lon := some 2,
    tags := [("name", "City Museum"), ("tourism", "museum")] }

/-- An element carrying a historic-site designation only. -/
def historicElement : OverpassElement :=
  { etype := some "node", lat := some 1, lon := some 2,
    tags := [("name", "Old Gate"), ("historic", "city_gate")] }

/-- An element tagged `tourism=attraction`. -/
def attractionElement : OverpassElement :=
  { etype := some "node", lat := some 1, lon := some 2,
    tags := [("name", "Big Tower"), ("tourism", "attraction")] }

/-- The place built from `attractionElement`. -/
def attractionPlace : Place :=
  (buildOverpassPlace distZero 0 0 attractionElement).getD
    { name := "", lat := 0, lon := 0, category := "" }

/-- An element named "Cafe X" at fixed coordinates. -/
def cafeXElement : OverpassElement :=
  { etype := some "node", lat := some 1, lon := some 2,
    tags := [("name", "Cafe X")] }

theorem settleLoop_nil_left (ds : List (String × ℚ)) : settleLoop [] ds = [] := by
  rw [settleLoop]

theorem settleLoop_nil_right (cs : List (String × ℚ)) : settleLoop cs [] = [] := by
  cases cs <;> rw [settleLoop]

theorem settleLoop_cons_cons (c : String) (ca : ℚ) (cs : List (String × ℚ))
    (d : String) (da : ℚ) (ds : List (String × ℚ)) :
    settleLoop ((c, ca) :: cs) ((d, da) :: ds) =
      Transfer.mk d c (min ca da) ::
        settleLoop
          (if ca - min ca da < (1 : ℚ)/100 then cs else (c, ca - min ca da) :: cs)
          (if da - min ca da < (1 : ℚ)/100 then ds else (d, da - min ca da) :: ds) := by
  rw [settleLoop]

/-- Membership in the loop's conditional tail: either already in the tail,
or it is the surviving head (when the remaining amount stayed at or above
the threshold). -/
theorem mem_of_mem_ite_cons {α : Type} {P : Prop} [Decidable P] {l : List α} {a x : α}
    (hx : x ∈ if P then l else a :: l) : x ∈ l ∨ (¬P ∧ x = a) := by
  split at hx
  · exact Or.inl hx
  · rcases List.mem_cons.1 hx with rfl | hx
    · exact Or.inr ⟨by assumption, rfl⟩
    · exact Or.inl hx

/-- Each iteration of the greedy loop drops at least one party, so the loop
emits at most `|creditors| + |debtors| - 1` transfers. -/
theorem settleLoop_length : ∀ cs ds : List (String × ℚ),
    (settleLoop cs ds).length ≤ cs.length + ds.length - 1 := by
  intro cs ds
  induction cs, ds using settleLoop.induct with
  | case1 ds => simp [settleLoop_nil_left]
  | case2 => simp [settleLoop_nil_right]
  | case3 c ca cs d da ds ih =>
      rw [settleLoop_cons_cons]
      simp only [List.length_cons]
      simp only [dite_eq_ite] at ih
      have hone :
          (if ca - min ca da < (1 : ℚ)/100 then cs else (c, ca - min ca da) :: cs).length +
            (if da - min ca da < (1 : ℚ)/100 then ds else (d, da - min ca da) :: ds).length ≤
            cs.length + ds.length + 1 := by
        rcases min_choice ca da with h | h <;> rw [h] <;> simp only [sub_self] <;>
          rw [if_pos (by norm_num : (0 : ℚ) < 1/100)] <;> split <;>
          (try simp only [List.length_cons]) <;> omega
      omega

/-- Every transfer emitted by the loop goes from a listed debtor to a
listed creditor. -/
theorem settleLoop_mem_keys : ∀ cs ds : List (String × ℚ), ∀ t ∈ settleLoop cs ds,
    t.to_person ∈ cs.map Prod.fst ∧ t.from_person ∈ ds.map Prod.fst := by
  intro cs ds
  induction cs, ds using settleLoop.induct with
  | case1 ds => simp [settleLoop_nil_left]
  | case2 => simp [settleLoop_nil_right]
  | case3 c ca cs d da ds ih =>
      intro t ht
      rw [settleLoop_cons_cons] at ht
      rcases List.mem_cons.1 ht with rfl | ht
      · simp
      · obtain ⟨h1, h2⟩ := ih t ht
        constructor
        · split at h1 <;> simp at h1 ⊢ <;> tauto
        · split at h2 <;> simp at h2 ⊢ <;> tauto

/-- If every entry of both lists is at least the `0.01` threshold, every
emitted transfer amount is at least the threshold. -/
theorem settleLoop_amount_ge : ∀ cs ds : List (String × ℚ),
    (∀ x ∈ cs, (1 : ℚ)/100 ≤ x.2) → (∀ x ∈ ds, (1 : ℚ)/100 ≤ x.2) →
    ∀ t ∈ settleLoop cs ds, (1 : ℚ)/100 ≤ t.amount := by
  intro cs ds
  induction cs, ds using settleLoop.induct with
  | case1 ds => simp [settleLoop_nil_left]
  | case2 => simp [settleLoop_nil_right]
  | case3 c ca cs d da ds ih =>
      intro hc hd t ht
      rw [settleLoop_cons_cons] at ht
      rcases List.mem_cons.1 ht with rfl | ht
      · exact le_min (hc _ (List.mem_cons_self _ _)) (hd _ (List.mem_cons_self _ _))
      · refine ih ?_ ?_ t ht
        · intro x hx
          rcases mem_of_mem_ite_cons hx with hx | ⟨hP, rfl⟩
          · exact hc x (List.mem_cons_of_mem _ hx)
          · exact le_of_not_lt hP
        · intro x hx
          rcases mem_of_mem_ite_cons hx with hx | ⟨hP, rfl⟩
          · exact hd x (List.mem_cons_of_mem _ hx)
          · exact le_of_not_lt hP

/-- If no person appears on both sides, every emitted transfer has distinct
endpoints. -/
theorem settleLoop_from_ne_to : ∀ cs ds : List (String × ℚ),
    (∀ x ∈ cs, ∀ y ∈ ds, x.1 ≠ y.1) →
    ∀ t ∈ settleLoop cs ds, t.from_person ≠ t.to_person := by
  intro cs ds
  induction cs, ds using settleLoop.induct with
  | case1 ds => simp [settleLoop_nil_left]
  | case2 => simp [settleLoop_nil_right]
  | case3 c ca cs d da ds ih =>
      intro hne t ht
      rw [settleLoop_cons_cons] at ht
      rcases List.mem_cons.1 ht with rfl | ht
      · exact fun h =>
          hne _ (List.mem_cons_self _ _) _ (List.mem_cons_self _ _) h.symm
      · refine ih ?_ t ht
        intro x hx y hy
        obtain ⟨x0, hx0, hx0e⟩ : ∃ x0 ∈ (c, ca) :: cs, x0.1 = x.1 := by
          rcases mem_of_mem_ite_cons hx with hx | ⟨_, rfl⟩
          · exact ⟨x, List.mem_cons_of_mem _ hx, rfl⟩
          · exact ⟨(c, ca), List.mem_cons_self _ _, rfl⟩
        obtain ⟨y0, hy0, hy0e⟩ : ∃ y0 ∈ (d, da) :: ds, y0.1 = y.1 := by
          rcases mem_of_mem_ite_cons hy with hy | ⟨_, rfl⟩
          · exact ⟨y, List.mem_cons_of_mem _ hy, rfl⟩
          · exact ⟨(d, da), List.mem_cons_self _ _, rfl⟩
        rw [← hx0e, ← hy0e]
        exact hne x0 hx0 y0 hy0

theorem receivedBy_nil (p : String) : receivedBy p [] = 0 := rfl

theorem paidBy_nil (p : String) : paidBy p [] = 0 := rfl

theorem receivedBy_cons (p : String) (t : Transfer) (ts : List Transfer) :
    receivedBy p (t :: ts) =
      (if t.to_person = p then t.amount else 0) + receivedBy p ts := by
  simp only [receivedBy, List.filter_cons]
  split <;> simp_all

theorem paidBy_cons (p : String) (t : Transfer) (ts : List Transfer) :
    paidBy p (t :: ts) =
      (if t.from_person = p then t.amount else 0) + paidBy p ts := by
  simp only [paidBy, List.filter_cons]
  split <;> simp_all

theorem receivedBy_eq_zero (p : String) (ts : List Transfer)
    (h : ∀ t ∈ ts, t.to_person ≠ p) : receivedBy p ts = 0 := by
  induction ts with
  | nil => rfl
  | cons t ts ih =>
      rw [receivedBy_cons, if_neg (h t (List.mem_cons_self _ _)),
        ih (fun u hu => h u (List.mem_cons_of_mem _ hu))]
      ring

theorem paidBy_eq_zero (p : String) (ts : List Transfer)
    (h : ∀ t ∈ ts, t.from_person ≠ p) : paidBy p ts = 0 := by
  induction ts with
  | nil => rfl
  | cons t ts ih =>
      rw [paidBy_cons, if_neg (h t (List.mem_cons_self _ _)),
        ih (fun u hu => h u (List.mem_cons_of_mem _ hu))]
      ring

theorem receivedBy_nonneg (p : String) (ts : List Transfer)
    (h : ∀ t ∈ ts, 0 ≤ t.amount) : 0 ≤ receivedBy p ts := by
  induction ts with
  | nil => simp [receivedBy_nil]
  | cons t ts ih =>
      rw [receivedBy_cons]
      have h1 : 0 ≤ if t.to_person = p then t.amount else 0 := by
        split
        · exact h t (List.mem_cons_self _ _)
        · exact le_refl 0
      have h2 := ih (fun u hu => h u (List.mem_cons_of_mem _ hu))
      linarith

theorem paidBy_nonneg (p : String) (ts : List Transfer)
    (h : ∀ t ∈ ts, 0 ≤ t.amount) : 0 ≤ paidBy p ts := by
  induction ts with
  | nil => simp [paidBy_nil]
  | cons t ts ih =>
      rw [paidBy_cons]
      have h1 : 0 ≤ if t.from_person = p then t.amount else 0 := by
        split
        · exact h t (List.mem_cons_self _ _)
        · exact le_refl 0
      have h2 := ih (fun u hu => h u (List.mem_cons_of_mem _ hu))
      linarith

/-- In a list with no duplicate keys an entry determines its value. -/
theorem eq_of_mem_nodup_keys {l : List (String × ℚ)} (hnd : (l.map Prod.fst).Nodup)
    {p : String} {a b : ℚ} (ha : (p, a) ∈ l) (hb : (p, b) ∈ l) : a = b := by
  induction l with
  | nil => cases ha
  | cons x l ih =>
      rw [List.map_cons, List.nodup_cons] at hnd
      rcases List.mem_cons.1 ha with h1 | h1 <;> rcases List.mem_cons.1 hb with h2 | h2
      · exact (Prod.ext_iff.1 (h1.trans h2.symm)).2
      · refine absurd ?_ hnd.1
        rw [← h1]
        simpa using List.mem_map_of_mem Prod.fst h2
      · refine absurd ?_ hnd.1
        rw [← h2]
        simpa using List.mem_map_of_mem Prod.fst h1
      · exact ih hnd.2 h1 h2

/-- A creditor listed with amount `a` never receives more than `a` in total
from the greedy loop (keys assumed distinct, amounts nonnegative). -/
theorem settleLoop_receivedBy_le : ∀ cs ds : List (String × ℚ),
    (cs.map Prod.fst).Nodup → (∀ x ∈ cs, 0 ≤ x.2) → ∀ p a, (p, a) ∈ cs →
    receivedBy p (settleLoop cs ds) ≤ a := by
  intro cs ds
  induction cs, ds using settleLoop.induct with
  | case1 ds =>
      intro _ _ p a hmem
      cases hmem
  | case2 =>
      intro _ hpos p a hmem
      rw [settleLoop_nil_right, receivedBy_nil]
      exact hpos (p, a) hmem
  | case3 c ca cs d da ds ih =>
      intro hnd hpos p a hmem
      simp only [dite_eq_ite] at ih
      have hpostail : ∀ x ∈ cs, (0 : ℚ) ≤ x.2 :=
        fun x hx => hpos x (List.mem_cons_of_mem _ hx)
      have hposkeep : ∀ x ∈ (c, ca - min ca da) :: cs, (0 : ℚ) ≤ x.2 := by
        intro x hx
        rcases List.mem_cons.1 hx with rfl | hx
        · exact sub_nonneg.2 (min_le_left ca da)
        · exact hpostail x hx
      rw [settleLoop_cons_cons, receivedBy_cons]
      have hndtail : (cs.map Prod.fst).Nodup := (List.map_cons Prod.fst _ _ ▸ hnd).of_cons
      have hcnotin : c ∉ cs.map Prod.fst := by
        rw [List.map_cons, List.nodup_cons] at hnd
        exact hnd.1
      by_cases hpc : c = p
      · subst hpc
        have ha : a = ca := by
          rcases List.mem_cons.1 hmem with h | h
          · exact (Prod.ext_iff.1 h).2
          · exact absurd (List.mem_map_of_mem Prod.fst h) hcnotin
        rw [ha]
        rw [if_pos rfl]
        by_cases hkeep : ca - min ca da < (1 : ℚ)/100
        · rw [if_pos hkeep]
          have hzero :
              receivedBy c
                (settleLoop cs
                  (if da - min ca da < (1 : ℚ)/100 then ds
                   else (d, da - min ca da) :: ds)) = 0 := by
            refine receivedBy_eq_zero _ _ (fun t ht hteq => ?_)
            exact hcnotin (hteq ▸ (settleLoop_mem_keys _ _ t ht).1)
          rw [hzero]
          simp
        · rw [if_neg hkeep]
          rw [if_neg hkeep] at ih
          have hrec := ih (by simpa [List.map_cons] using hnd) hposkeep c
            (ca - min ca da) (List.mem_cons_self _ _)
          linarith
      · rw [if_neg hpc]
        have hmemtail : (p, a) ∈ cs := by
          rcases List.mem_cons.1 hmem with h | h
          · exact absurd (Prod.ext_iff.1 h).1.symm hpc
          · exact h
        by_cases hkeep : ca - min ca da < (1 : ℚ)/100
        · rw [if_pos hkeep]
          rw [if_pos hkeep] at ih
          have hrec := ih hndtail hpostail p a hmemtail
          linarith
        · rw [if_neg hkeep]
          rw [if_neg hkeep] at ih
          have hrec := ih (by simpa [List.map_cons] using hnd) hposkeep p a
            (List.mem_cons_of_mem _ hmemtail)
          linarith

/-- A debtor listed with amount `a` never pays more than `a` in total in
the greedy loop (keys assumed distinct, amounts nonnegative). -/
theorem settleLoop_paidBy_le : ∀ cs ds : List (String × ℚ),
    (ds.map Prod.fst).Nodup → (∀ x ∈ ds, 0 ≤ x.2) → ∀ p a, (p, a) ∈ ds →
    paidBy p (settleLoop cs ds) ≤ a := by
  intro cs ds
  induction cs, ds using settleLoop.induct with
  | case1 ds =>
      intro _ hpos p a hmem
      rw [settleLoop_nil_left, paidBy_nil]
      exact hpos (p, a) hmem
  | case2 =>
      intro _ _ p a hmem
      cases hmem
  | case3 c ca cs d da ds ih =>
      intro hnd hpos p a hmem
      simp only [dite_eq_ite] at ih
      have hpostail : ∀ x ∈ ds, (0 : ℚ) ≤ x.2 :=
        fun x hx => hpos x (List.mem_cons_of_mem _ hx)
      have hposkeep : ∀ x ∈ (d, da - min ca da) :: ds, (0 : ℚ) ≤ x.2 := by
        intro x hx
        rcases List.mem_cons.1 hx with rfl | hx
        · exact sub_nonneg.2 (min_le_right ca da)
        · exact hpostail x hx
      rw [settleLoop_cons_cons, paidBy_cons]
      have hndtail : (ds.map Prod.fst).Nodup := (List.map_cons Prod.fst _ _ ▸ hnd).of_cons
      have hdnotin : d ∉ ds.map Prod.fst := by
        rw [List.map_cons, List.nodup_cons] at hnd
        exact hnd.1
      by_cases hpd : d = p
      · subst hpd
        have ha : a = da := by
          rcases List.mem_cons.1 hmem with h | h
          · exact (Prod.ext_iff.1 h).2
          · exact absurd (List.mem_map_of_mem Prod.fst h) hdnotin
        rw [ha]
        rw [if_pos rfl]
        by_cases hkeep : da - min ca da < (1 : ℚ)/100
        · rw [if_pos hkeep]
          have hzero :
              paidBy d
                (settleLoop
                  (if ca - min ca da < (1 : ℚ)/100 then cs
                   else (c, ca - min ca da) :: cs) ds) = 0 := by
            refine paidBy_eq_zero _ _ (fun t ht hteq => ?_)
            exact hdnotin (hteq ▸ (settleLoop_mem_keys _ _ t ht).2)
          rw [hzero]
          simp
        · rw [if_neg hkeep]
          rw [if_neg hkeep] at ih
          have hrec := ih (by simpa [List.map_cons] using hnd) hposkeep d
            (da - min ca da) (List.mem_cons_self _ _)
          linarith
      · rw [if_neg hpd]
        have hmemtail : (p, a) ∈ ds := by
          rcases List.mem_cons.1 hmem with h | h
          · exact absurd (Prod.ext_iff.1 h).1.symm hpd
          · exact h
        by_cases hkeep : da - min ca da < (1 : ℚ)/100
        · rw [if_pos hkeep]
          rw [if_pos hkeep] at ih
          have hrec := ih hndtail hpostail p a hmemtail
          linarith
        · rw [if_neg hkeep]
          rw [if_neg hkeep] at ih
          have hrec := ih (by simpa [List.map_cons] using hnd) hposkeep p a
            (List.mem_cons_of_mem _ hmemtail)
          linarith

theorem mem_addBal_keys (bs : List (String × ℚ)) (p : String) (v : ℚ) (x : String) :
    x ∈ (addBal bs p v).map Prod.fst ↔ x ∈ bs.map Prod.fst ∨ x = p := by
  induction bs with
  | nil => simp [addBal]
  | cons qw rest ih =>
      obtain ⟨q, w⟩ := qw
      by_cases h : q = p
      · subst h
        simp [addBal]
        tauto
      · simp [addBal, h, ih]
        tauto

theorem addBal_keys_nodup (bs : List (String × ℚ)) (p : String) (v : ℚ)
    (hnd : (bs.map Prod.fst).Nodup) : ((addBal bs p v).map Prod.fst).Nodup := by
  induction bs with
  | nil => simp [addBal]
  | cons qw rest ih =>
      obtain ⟨q, w⟩ := qw
      rw [List.map_cons, List.nodup_cons] at hnd
      by_cases h : q = p
      · subst h
        simpa [addBal] using hnd
      · rw [addBal]
        rw [if_neg h]
        rw [List.map_cons, List.nodup_cons]
        refine ⟨?_, ih hnd.2⟩
        rw [mem_addBal_keys]
        rintro (hq | hq)
        · exact hnd.1 hq
        · exact h hq

theorem addBal_sum (bs : List (String × ℚ)) (p : String) (v : ℚ) :
    ((addBal bs p v).map Prod.snd).sum = (bs.map Prod.snd).sum + v := by
  induction bs with
  | nil => simp [addBal]
  | cons qw rest ih =>
      obtain ⟨q, w⟩ := qw
      by_cases h : q = p
      · subst h
        simp [addBal]
        ring
      · simp [addBal, h, ih]
        ring

theorem debitFold_keys_nodup (l : List String) (c : ℚ) :
    ∀ bs : List (String × ℚ), (bs.map Prod.fst).Nodup →
    ((l.foldl (fun b q => addBal b q c) bs).map Prod.fst).Nodup := by
  induction l with
  | nil => intro bs hnd; simpa using hnd
  | cons q l ih =>
      intro bs hnd
      rw [List.foldl_cons]
      exact ih _ (addBal_keys_nodup bs q c hnd)

theorem debitFold_sum (l : List String) (c : ℚ) :
    ∀ bs : List (String × ℚ),
    ((l.foldl (fun b q => addBal b q c) bs).map Prod.snd).sum =
      (bs.map Prod.snd).sum + l.length * c := by
  induction l with
  | nil => intro bs; simp
  | cons q l ih =>
      intro bs
      rw [List.foldl_cons, ih, addBal_sum]
      simp only [List.length_cons]
      push_cast
      ring

theorem applyExpense_keys_nodup (bs : List (String × ℚ)) (e : Expense)
    (hnd : (bs.map Prod.fst).Nodup) : ((applyExpense bs e).map Prod.fst).Nodup :=
  debitFold_keys_nodup _ _ _ (addBal_keys_nodup _ _ _ hnd)

/-- For a non-empty split the expense's credit and debits cancel exactly. -/
theorem applyExpense_sum (bs : List (String × ℚ)) (e : Expense)
    (hne : e.split_between ≠ []) :
    ((applyExpense bs e).map Prod.snd).sum = (bs.map Prod.snd).sum := by
  have hn : ((e.split_between.length : ℚ)) ≠ 0 := by
    have := List.length_pos.2 hne
    positivity
  rw [applyExpense, debitFold_sum, addBal_sum]
  field_simp
  ring

theorem netBalances_keys_nodup (expenses : List Expense) :
    ((netBalances expenses).map Prod.fst).Nodup := by
  have hgen : ∀ (es : List Expense) (bs : List (String × ℚ)),
      (bs.map Prod.fst).Nodup →
      ((es.foldl applyExpense bs).map Prod.fst).Nodup := by
    intro es
    induction es with
    | nil => intro bs hnd; simpa using hnd
    | cons e es ih =>
        intro bs hnd
        rw [List.foldl_cons]
        exact ih _ (applyExpense_keys_nodup bs e hnd)
  exact hgen expenses [] (by simp)

/-- Balance conservation: when every expense has a non-empty split, all net
balances cancel exactly. -/
theorem netBalances_sum_eq_zero (expenses : List Expense)
    (h : ∀ e ∈ expenses, e.split_between ≠ []) :
    ((netBalances expenses).map Prod.snd).sum = 0 := by
  have hgen : ∀ (es : List Expense) (bs : List (String × ℚ)),
      (∀ e ∈ es, e.split_between ≠ []) →
      ((es.foldl applyExpense bs).map Prod.snd).sum = (bs.map Prod.snd).sum := by
    intro es
    induction es with
    | nil => intro bs _; simp
    | cons e es ih =>
        intro bs hne
        rw [List.foldl_cons, ih _ (fun u hu => hne u (List.mem_cons_of_mem _ hu)),
          applyExpense_sum _ _ (hne e (List.mem_cons_self _ _))]
  simpa using hgen expenses [] h

theorem mem_sortDesc {l : List (String × ℚ)} {x : String × ℚ} :
    x ∈ sortDesc l ↔ x ∈ l :=
  (List.mergeSort_perm l _).mem_iff

theorem sorted_creditors_ge (expenses : List Expense) :
    ∀ x ∈ sortDesc (creditorsOf expenses), (1 : ℚ)/100 ≤ x.2 := by
  intro x hx
  have hx1 := List.mem_filter.1 (mem_sortDesc.1 hx)
  exact le_of_lt (of_decide_eq_true hx1.2)

theorem sorted_debtors_ge (expenses : List Expense) :
    ∀ x ∈ sortDesc (debtorsOf expenses), (1 : ℚ)/100 ≤ x.2 := by
  intro x hx
  rcases List.mem_map.1 (mem_sortDesc.1 hx) with ⟨pb, hpb, rfl⟩
  have hlt : pb.2 < -((1 : ℚ)/100) := of_decide_eq_true (List.mem_filter.1 hpb).2
  simp only
  linarith

theorem sorted_creditors_mem_balances (expenses : List Expense) :
    ∀ x ∈ sortDesc (creditorsOf expenses),
    x ∈ netBalances expenses ∧ (1 : ℚ)/100 < x.2 := by
  intro x hx
  have hx1 := List.mem_filter.1 (mem_sortDesc.1 hx)
  exact ⟨hx1.1, of_decide_eq_true hx1.2⟩

theorem sorted_debtors_mem_balances (expenses : List Expense) :
    ∀ y ∈ sortDesc (debtorsOf expenses),
    ∃ b, (y.1, b) ∈ netBalances expenses ∧ b < -((1 : ℚ)/100) ∧ y.2 = -b := by
  intro y hy
  rcases List.mem_map.1 (mem_sortDesc.1 hy) with ⟨pb, hpb, rfl⟩
  have h1 := List.mem_filter.1 hpb
  exact ⟨pb.2, by simpa using h1.1, of_decide_eq_true h1.2, rfl⟩

/-- No person can be both a creditor and a debtor (keys of the balance
mapping are distinct). -/
theorem sorted_keys_disjoint (expenses : List Expense) :
    ∀ x ∈ sortDesc (creditorsOf expenses), ∀ y ∈ sortDesc (debtorsOf expenses),
    x.1 ≠ y.1 := by
  intro x hx y hy hxy
  obtain ⟨hxb, hxgt⟩ := sorted_creditors_mem_balances expenses x hx
  obtain ⟨b, hyb, hblt, _⟩ := sorted_debtors_mem_balances expenses y hy
  rw [← hxy] at hyb
  have hxb2 : (x.1, x.2) ∈ netBalances expenses := by simpa using hxb
  have := eq_of_mem_nodup_keys (netBalances_keys_nodup expenses) hxb2 hyb
  linarith

theorem sorted_creditors_keys_nodup (expenses : List Expense) :
    ((sortDesc (creditorsOf expenses)).map Prod.fst).Nodup := by
  have hperm := (List.mergeSort_perm (creditorsOf expenses)
    (fun a b => decide (b.2 ≤ a.2))).map Prod.fst
  refine hperm.nodup_iff.2 ?_
  exact ((List.filter_sublist _).map Prod.fst).nodup (netBalances_keys_nodup expenses)

theorem sorted_debtors_keys_nodup (expenses : List Expense) :
    ((sortDesc (debtorsOf expenses)).map Prod.fst).Nodup := by
  have hperm := (List.mergeSort_perm (debtorsOf expenses)
    (fun a b => decide (b.2 ≤ a.2))).map Prod.fst
  refine hperm.nodup_iff.2 ?_
  have hkeys : (debtorsOf expenses).map Prod.fst =
      ((netBalances expenses).filter
        (fun pb => decide (pb.2 < -((1 : ℚ)/100)))).map Prod.fst := by
    rw [debtorsOf, List.map_map]
    rfl
  rw [hkeys]
  exact ((List.filter_sublist _).map Prod.fst).nodup (netBalances_keys_nodup expenses)

/-- Every transfer the settlement engine emits carries at least the `0.01`
threshold amount. -/
theorem calculate_settlements_amount_ge (expenses : List Expense) :
    ∀ t ∈ calculate_settlements expenses, (1 : ℚ)/100 ≤ t.amount :=
  settleLoop_amount_ge _ _ (sorted_creditors_ge expenses) (sorted_debtors_ge expenses)

theorem netBalances_simpleExpense :
    netBalances simpleExpense = [("A", 3), ("B", -3)] := by
  norm_num +decide [simpleExpense, netBalances, applyExpense, addBal]

theorem calculate_settlements_simpleExpense :
    calculate_settlements simpleExpense = [Transfer.mk "B" "A" 3] := by
  norm_num +decide [simpleExpense, calculate_settlements, sortDesc, creditorsOf,
    debtorsOf, netBalances, applyExpense, addBal, List.mergeSort, List.filter_cons]
  rw [settleLoop_cons_cons]
  norm_num
  rw [settleLoop_nil_left]

theorem netBalances_cancellingExpenses :
    netBalances cancellingExpenses = [("A", 0), ("B", 0)] := by
  norm_num +decide [cancellingExpenses, netBalances, applyExpense, addBal]

theorem netBalances_tinyExpense :
    netBalances tinyExpense = [("A", 1/50), ("B", -(1/100)), ("C", -(1/100))] := by
  norm_num +decide [tinyExpense, netBalances, applyExpense, addBal]

theorem calculate_settlements_tinyExpense :
    calculate_settlements tinyExpense = [] := by
  norm_num +decide [tinyExpense, calculate_settlements, sortDesc, creditorsOf,
    debtorsOf, netBalances, applyExpense, addBal, List.mergeSort, List.filter_cons]
  rw [settleLoop_nil_right]

/-- C2: for every expense list (with the non-empty splits the spec
requires of callers), the net balances computed by `calculate_settlements`
sum to 0 over all persons, within tolerance `1e-6` (exactly 0 in exact
arithmetic). -/
theorem claim_C2 (expenses : List Expense)
    (h : ∀ e ∈ expenses, e.split_between ≠ []) :
    |((netBalances expenses).map Prod.snd).sum| ≤ 1/1000000 := by
  rw [netBalances_sum_eq_zero expenses h]
  norm_num

/-- Witness for C2 at the concrete cancelling ledger. -/
theorem claim_C2_witness :
    (∀ e ∈ cancellingExpenses, e.split_between ≠ []) ∧
    |((netBalances cancellingExpenses).map Prod.snd).sum| ≤ 1/1000000 := by
  have hsplit : ∀ e ∈ cancellingExpenses, e.split_between ≠ [] := by
    intro e he
    simp only [cancellingExpenses, List.mem_cons, List.not_mem_nil, or_false] at he
    rcases he with rfl | rfl <;> simp
  exact ⟨hsplit, claim_C2 cancellingExpenses hsplit⟩

/-- C3: the number of transfers returned by `calculate_settlements` is at
most `(number of creditors) + (number of debtors) - 1`, where creditors
have net balance `> 0.01` and debtors net balance `< -0.01`. -/
theorem claim_C3 (expenses : List Expense) :
    (calculate_settlements expenses).length ≤
      (creditorsOf expenses).length + (debtorsOf expenses).length - 1 := by
  have h := settleLoop_length (sortDesc (creditorsOf expenses))
    (sortDesc (debtorsOf expenses))
  rw [calculate_settlements]
  have h1 : (sortDesc (creditorsOf expenses)).length = (creditorsOf expenses).length :=
    (List.mergeSort_perm _ _).length_eq
  have h2 : (sortDesc (debtorsOf expenses)).length = (debtorsOf expenses).length :=
    (List.mergeSort_perm _ _).length_eq
  rw [h1, h2] at h
  exact h

/-- C9: the empty expense list settles to the empty transfer list, and any
ledger whose every net balance is within the `0.01` epsilon of zero
settles to the empty transfer list. -/
theorem claim_C9 :
    calculate_settlements [] = [] ∧
    ∀ expenses : List Expense,
      (∀ pb ∈ netBalances expenses, |pb.2| ≤ 1/100) →
      calculate_settlements expenses = [] := by
  have hnil : ∀ es : List Expense, creditorsOf es = [] → debtorsOf es = [] →
      calculate_settlements es = [] := by
    intro es h1 h2
    simp only [calculate_settlements, h1, h2, sortDesc, List.mergeSort_nil,
      settleLoop_nil_left]
  constructor
  · exact hnil [] rfl rfl
  · intro es h
    refine hnil es ?_ ?_
    · rw [creditorsOf, List.filter_eq_nil_iff]
      intro pb hpb
      simp only [decide_eq_true_eq]
      have h2 := (abs_le.1 (h pb hpb)).2
      intro hlt
      linarith
    · rw [debtorsOf]
      have hfil : (netBalances es).filter
          (fun pb => decide (pb.2 < -((1 : ℚ)/100))) = [] := by
        rw [List.filter_eq_nil_iff]
        intro pb hpb
        simp only [decide_eq_true_eq]
        have h2 := (abs_le.1 (h pb hpb)).1
        intro hlt
        linarith
      rw [hfil]
      rfl

/-- Witness for C9 at the concrete perfectly cancelling ledger. -/
theorem claim_C9_witness :
    (∀ pb ∈ netBalances cancellingExpenses, |pb.2| ≤ 1/100) ∧
    calculate_settlements cancellingExpenses = [] := by
  have hb : ∀ pb ∈ netBalances cancellingExpenses, |pb.2| ≤ (1 : ℚ)/100 := by
    rw [netBalances_cancellingExpenses]
    intro pb hpb
    simp only [List.mem_cons, List.not_mem_nil, or_false] at hpb
    rcases hpb with rfl | rfl <;> norm_num
  exact ⟨hb, claim_C9.2 cancellingExpenses hb⟩

/-- C10: every transfer returned by `calculate_settlements` is well
formed: its amount is strictly positive (indeed at least the `0.01`
epsilon) and its payer differs from its payee. -/
theorem claim_C10 (expenses : List Expense) (t : Transfer)
    (ht : t ∈ calculate_settlements expenses) :
    0 < t.amount ∧ (1 : ℚ)/100 ≤ t.amount ∧ t.from_person ≠ t.to_person := by
  have h1 := calculate_settlements_amount_ge expenses t ht
  refine ⟨by linarith, h1, ?_⟩
  exact settleLoop_from_ne_to _ _ (sorted_keys_disjoint expenses) t ht

/-- Witness for C10 at a concrete one-expense ledger. -/
theorem claim_C10_witness :
    0 < (Transfer.mk "B" "A" 3).amount ∧
    (1 : ℚ)/100 ≤ (Transfer.mk "B" "A" 3).amount ∧
    (Transfer.mk "B" "A" 3).from_person ≠ (Transfer.mk "B" "A" 3).to_person :=
  claim_C10 simpleExpense _
    (by rw [calculate_settlements_simpleExpense]; exact List.mem_singleton.2 rfl)

/-- C1 counterexample: for the ledger where A pays 0.02 split between B
and C, A is a creditor (balance 0.02 > 0.01) yet receives no transfers at
all, missing the claimed balance reproduction by more than the epsilon. -/
theorem claim_C1_counterexample :
    ("A", (1/50 : ℚ)) ∈ netBalances tinyExpense ∧
    (1 : ℚ)/100 < 1/50 ∧
    calculate_settlements tinyExpense = [] ∧
    ¬ |receivedBy "A" (calculate_settlements tinyExpense) - 1/50| ≤ (1 : ℚ)/100 := by
  refine ⟨by rw [netBalances_tinyExpense]; simp, by norm_num,
    calculate_settlements_tinyExpense, ?_⟩
  rw [calculate_settlements_tinyExpense, receivedBy_nil]
  norm_num [abs_of_pos]

/-- C1 (amended): summing the transfers produced by
`calculate_settlements` per person never exceeds that person's net
balance and is never negative: each creditor receives in total between 0
and their credit, and each debtor pays in total between 0 and their debt.
(The total can fall short of the balance by more than the 0.01 epsilon,
as the counterexample shows.) -/
theorem claim_C1_amended (expenses : List Expense) (p : String) (a : ℚ)
    (hmem : (p, a) ∈ netBalances expenses) :
    ((1 : ℚ)/100 < a →
      0 ≤ receivedBy p (calculate_settlements expenses) ∧
      receivedBy p (calculate_settlements expenses) ≤ a) ∧
    (a < -((1 : ℚ)/100) →
      0 ≤ paidBy p (calculate_settlements expenses) ∧
      paidBy p (calculate_settlements expenses) ≤ -a) := by
  have hamt : ∀ t ∈ calculate_settlements expenses, (0 : ℚ) ≤ t.amount :=
    fun t ht => le_trans (by norm_num) (calculate_settlements_amount_ge expenses t ht)
  constructor
  · intro ha
    refine ⟨receivedBy_nonneg _ _ hamt, ?_⟩
    have hmemC : (p, a) ∈ sortDesc (creditorsOf expenses) :=
      mem_sortDesc.2 (List.mem_filter.2 ⟨hmem, decide_eq_true ha⟩)
    exact settleLoop_receivedBy_le _ _ (sorted_creditors_keys_nodup expenses)
      (fun x hx => le_trans (by norm_num) (sorted_creditors_ge expenses x hx))
      p a hmemC
  · intro ha
    refine ⟨paidBy_nonneg _ _ hamt, ?_⟩
    have hmemF : (p, a) ∈ (netBalances expenses).filter
        (fun pb => decide (pb.2 < -((1 : ℚ)/100))) :=
      List.mem_filter.2 ⟨hmem, decide_eq_true ha⟩
    have hmemD : (p, -a) ∈ sortDesc (debtorsOf expenses) :=
      mem_sortDesc.2 (by rw [debtorsOf]; exact List.mem_map.2 ⟨(p, a), hmemF, rfl⟩)
    exact settleLoop_paidBy_le _ _ (sorted_debtors_keys_nodup expenses)
      (fun x hx => le_trans (by norm_num) (sorted_debtors_ge expenses x hx))
      p (-a) hmemD

/-- Witness for the amended C1 at a concrete one-expense ledger. -/
theorem claim_C1_amended_witness :
    0 ≤ receivedBy "A" (calculate_settlements simpleExpense) ∧
    receivedBy "A" (calculate_settlements simpleExpense) ≤ 3 :=
  (claim_C1_amended simpleExpense "A" 3
    (by rw [netBalances_simpleExpense]; simp)).1 (by norm_num)

/-- C4: with the default `normalize_distance = 5.0`, `score_place` returns
`0.4*(1 - min(d/5, 1)) + 0.3*(0.8 if attraction) + 0.3*(0.7 if chain)`,
stores the same value on the place, and for non-negative distances the
result lies in `[0, 0.85]`; a chain attraction at distance 0 scores
exactly `0.85`, so the full `[0,1]` range is not covered. -/
theorem claim_C4 (p : Place) :
    (score_place p).2 =
      (1 - min (p.distance_from_center / 5) 1) * (2/5) +
      (if p.is_tourist_attraction then (4/5 : ℚ) else 0) * (3/10) +
      (if p.is_chain then (7/10 : ℚ) else 0) * (3/10) ∧
    (score_place p).1.crowd_score = (score_place p).2 ∧
    (0 ≤ p.distance_from_center →
      0 ≤ (score_place p).2 ∧ (score_place p).2 ≤ 17/20) ∧
    (score_place mostCrowdedPlace).2 = 17/20 := by
  refine ⟨rfl, rfl, ?_, by norm_num [score_place, mostCrowdedPlace]⟩
  intro hd
  have hm1 : min (p.distance_from_center / 5) 1 ≤ 1 := min_le_right _ _
  have hm0 : 0 ≤ min (p.distance_from_center / 5) 1 :=
    le_min (div_nonneg hd (by norm_num)) zero_le_one
  have hsum : (score_place p).2 =
      (1 - min (p.distance_from_center / 5) 1) * (2/5) +
      (if p.is_tourist_attraction then (4/5 : ℚ) else 0) * (3/10) +
      (if p.is_chain then (7/10 : ℚ) else 0) * (3/10) := rfl
  rw [hsum]
  have hA0 : 0 ≤ (if p.is_tourist_attraction then (4/5 : ℚ) else 0) := by
    split <;> norm_num
  have hA1 : (if p.is_tourist_attraction then (4/5 : ℚ) else 0) ≤ 4/5 := by
    split <;> norm_num
  have hB0 : 0 ≤ (if p.is_chain then (7/10 : ℚ) else 0) := by
    split <;> norm_num
  have hB1 : (if p.is_chain then (7/10 : ℚ) else 0) ≤ 7/10 := by
    split <;> norm_num
  constructor <;> nlinarith [hm0, hm1, hA0, hA1, hB0, hB1]

/-- Witness for C4 at the chain attraction at distance 0. -/
theorem claim_C4_witness :
    0 ≤ (score_place mostCrowdedPlace).2 ∧
    (score_place mostCrowdedPlace).2 ≤ 17/20 :=
  (claim_C4 mostCrowdedPlace).2.2.1 (by norm_num [mostCrowdedPlace])

/-- C5: `rank_places` scores every place and returns the scored list
sorted by `crowd_score` — a permutation of the scored input that is
non-decreasing when `avoid_crowds` is true and non-increasing when it is
false. -/
theorem claim_C5 (places : List Place) (avoid_crowds : Bool) :
    (rank_places places avoid_crowds).Perm
      (places.map (fun q => (score_place q).1)) ∧
    (rank_places places true).Pairwise
      (fun a b => a.crowd_score ≤ b.crowd_score) ∧
    (rank_places places false).Pairwise
      (fun a b => b.crowd_score ≤ a.crowd_score) := by
  refine ⟨?_, ?_, ?_⟩
  · simp only [rank_places]
    cases avoid_crowds <;> simp <;> exact List.mergeSort_perm _ _
  · have htrans : ∀ a b c : Place,
        decide (a.crowd_score ≤ b.crowd_score) = true →
        decide (b.crowd_score ≤ c.crowd_score) = true →
        decide (a.crowd_score ≤ c.crowd_score) = true := fun a b c hab hbc =>
      decide_eq_true (le_trans (of_decide_eq_true hab) (of_decide_eq_true hbc))
    have htot : ∀ a b : Place,
        (decide (a.crowd_score ≤ b.crowd_score) ||
          decide (b.crowd_score ≤ a.crowd_score)) = true := by
      intro a b
      rcases le_total a.crowd_score b.crowd_score with h | h <;> simp [h]
    have hs := List.sorted_mergeSort htrans htot
      (places.map (fun q => (score_place q).1))
    simp only [rank_places, if_true]
    exact hs.imp (fun h => of_decide_eq_true h)
  · have htrans : ∀ a b c : Place,
        decide (b.crowd_score ≤ a.crowd_score) = true →
        decide (c.crowd_score ≤ b.crowd_score) = true →
        decide (c.crowd_score ≤ a.crowd_score) = true := fun a b c hab hbc =>
      decide_eq_true (le_trans (of_decide_eq_true hbc) (of_decide_eq_true hab))
    have htot : ∀ a b : Place,
        (decide (b.crowd_score ≤ a.crowd_score) ||
          decide (a.crowd_score ≤ b.crowd_score)) = true := by
      intro a b
      rcases le_total b.crowd_score a.crowd_score with h | h <;> simp [h]
    have hs := List.sorted_mergeSort htrans htot
      (places.map (fun q => (score_place q).1))
    simp only [rank_places, Bool.false_eq_true, if_false]
    exact hs.imp (fun h => of_decide_eq_true h)

/-- C6 counterexample: a tag mapping that matches no category resolves to
the string "place", not "other" as claimed. -/
theorem claim_C6_counterexample :
    category_from_tags [("building", "yes")] = "place" ∧
    ("place" : String) ≠ "other" :=
  ⟨rfl, by decide⟩

/-- C6 (amended): category resolution maps a tag mapping to one of
{cafe, restaurant, park, museum, attraction}; every tag mapping that
matches none of these resolves to "place" (not "other"). -/
theorem claim_C6_amended (tags : List (String × String)) :
    category_from_tags tags ∈
      (["cafe", "restaurant", "park", "museum", "attraction", "place"] :
        List String) ∧
    (tagsGet tags "amenity" ≠ some "cafe" →
     tagsGet tags "amenity" ≠ some "restaurant" →
     tagsGet tags "leisure" ≠ some "park" →
     tagsGet tags "tourism" ≠ some "museum" →
     tagsGet tags "tourism" ≠ some "attraction" →
     category_from_tags tags = "place") := by
  constructor
  · rw [category_from_tags]
    split_ifs <;> simp
  · intro h1 h2 h3 h4 h5
    rw [category_from_tags, if_neg h1, if_neg h2, if_neg h3, if_neg h4, if_neg h5]

/-- Witness for the amended C6 at a concrete unmatched tag mapping. -/
theorem claim_C6_amended_witness :
    category_from_tags [("building", "yes")] = "place" :=
  (claim_C6_amended [("building", "yes")]).2 (by decide) (by decide) (by decide)
    (by decide) (by decide)

/-- C7 counterexample: a record tagged `tourism=museum`, and one carrying
only a `historic` tag, both yield `is_tourist_attraction = false`,
contradicting the claim that museums and historic sites count. -/
theorem claim_C7_counterexample :
    (buildOverpassPlace distZero 0 0 museumElement).map Place.is_tourist_attraction
      = some false ∧
    (buildOverpassPlace distZero 0 0 historicElement).map Place.is_tourist_attraction
      = some false :=
  ⟨rfl, rfl⟩

/-- C7 (amended): a built place has `is_tourist_attraction = true` exactly
when its `tourism` tag equals "attraction"; museum or historic tags alone
do not set it. -/
theorem claim_C7_amended (dist : ℚ → ℚ → ℚ → ℚ → ℚ) (centerLat centerLon : ℚ)
    (el : OverpassElement) (p : Place)
    (h : buildOverpassPlace dist centerLat centerLon el = some p) :
    (p.is_tourist_attraction = true ↔
      tagsGet el.tags "tourism" = some "attraction") := by
  simp only [buildOverpassPlace] at h
  split at h
  · exact absurd h (by simp)
  · cases hla : el.lat with
    | none => rw [hla] at h; exact absurd h (by simp)
    | some la =>
        cases hlo : el.lon with
        | none => rw [hla, hlo] at h; exact absurd h (by simp)
        | some lo =>
            rw [hla, hlo] at h
            simp only [Option.some.injEq] at h
            rw [← h]
            simp [beq_iff_eq]

/-- Witness for the amended C7 at a concrete `tourism=attraction`
element. -/
theorem claim_C7_amended_witness :
    attractionPlace.is_tourist_attraction = true ↔
      tagsGet attractionElement.tags "tourism" = some "attraction" :=
  claim_C7_amended distZero 0 0 attractionElement attractionPlace rfl

/-- The element loop keeps an element exactly when it passes the name and
coordinate guards. -/
theorem buildOverpassPlace_isSome (dist : ℚ → ℚ → ℚ → ℚ → ℚ)
    (centerLat centerLon : ℚ) (el : OverpassElement) :
    (buildOverpassPlace dist centerLat centerLon el).isSome = validElement el := by
  simp only [buildOverpassPlace, validElement]
  split
  · rename_i hn
    simp [hn]
  · rename_i hn
    cases hla : el.lat <;> cases hlo : el.lon <;> simp [hla, hlo, hn]

/-- C8 counterexample: two identical fetched elements named "Cafe X" at
identical coordinates yield two places, not one — no deduplication is
performed. -/
theorem claim_C8_counterexample :
    (fetch_overpass_places distZero 0 0 [cafeXElement, cafeXElement]).length = 2 ∧
    (fetch_overpass_places distZero 0 0 [cafeXElement, cafeXElement]).map Place.name
      = ["Cafe X", "Cafe X"] :=
  ⟨rfl, rfl⟩

/-- C8 (amended): when building a place list from a geodata fetch no
entries are collapsed: every element with a non-empty stripped name and
present coordinates contributes exactly one place, duplicates included. -/
theorem claim_C8_amended (dist : ℚ → ℚ → ℚ → ℚ → ℚ) (centerLat centerLon : ℚ)
    (elements : List OverpassElement) :
    (fetch_overpass_places dist centerLat centerLon elements).length =
      (elements.filter validElement).length := by
  induction elements with
  | nil => rfl
  | cons el els ih =>
      simp only [fetch_overpass_places, List.filterMap_cons, List.filter_cons] at ih ⊢
      cases hb : buildOverpassPlace dist centerLat centerLon el with
      | none =>
          have hv : validElement el = false := by
            rw [← buildOverpassPlace_isSome dist centerLat centerLon el, hb]
            rfl
          rw [hv]
          simpa using ih
      | some q =>
          have hv : validElement el = true := by
            rw [← buildOverpassPlace_isSome dist centerLat centerLon el, hb]
            rfl
          rw [hv]
          simpa using ih

end IChack
